import Mathlib

/-!
# Verification of the abracadabra refactoring core

Shallow embedding of the repository's core data model and algorithms:

* `Position` — from `src/refactorings/position.ts`.
* `Selection` — the class is referenced by the sources but its file is not part
  of the visible sources; the operations used (`cursorAt`, `cursorAtPosition`,
  `startsBefore`, `extendEndToStartOf`) are modelled from the spec (§3, §4.3,
  §4.4) and from their call sites.
* `InMemoryEditor` — buffer mutation engine, marker decoding, serialization,
  from the in-memory editor source (`InMemoryEditor.readThenWrite`,
  `setCodeMatrix`, `setSelectionFromCursor`, `read`, `codeOf`, `writeIn`).
* `RefactoringActionProvider` — discovery accumulation, visitor dispatch and
  the `provideCodeActions` error barrier.

JavaScript strings are modelled as `List Char` (with `String` at the observable
boundary); the code matrix is a list of lines, each line a list of entries
(`List Char`), matching the source's `CodeMatrix = string[][]` where an entry
is normally a single character but a committed replacement is inserted as one
multi-character entry.
-/

namespace Abracadabra

/-- `Position` from `src/refactorings/position.ts`: an immutable line/character
coordinate.  Both fields are non-negative (spec §3), so we use `Nat`. -/
structure Position where
  line : Nat
  character : Nat
deriving DecidableEq, Repr

namespace Position

/-- `Position.isEqualTo`: same line and same character. -/
def isEqualTo (a b : Position) : Bool :=
  a.line == b.line && a.character == b.character

/-- `Position.isSameLineThan`. -/
def isSameLineThan (a b : Position) : Bool :=
  a.line == b.line

/-- `Position.isBefore`, translated literally from the source: it returns
`true` when the positions are equal, when the line is strictly smaller, or when
the line is the same and the character strictly smaller. -/
def isBefore (a b : Position) : Bool :=
  a.isEqualTo b || decide (a.line < b.line) ||
    (a.isSameLineThan b && decide (a.character < b.character))

end Position

/-- Strict document order on positions (lexicographic on line, character).
Used to state ordering facts about the source's `isBefore`. -/
def posLt (a b : Position) : Prop :=
  a.line < b.line ∨ (a.line = b.line ∧ a.character < b.character)

/-- Non-strict document order on positions. -/
def posLe (a b : Position) : Prop :=
  a.line < b.line ∨ (a.line = b.line ∧ a.character ≤ b.character)

instance (a b : Position) : Decidable (posLt a b) := by unfold posLt; infer_instance
instance (a b : Position) : Decidable (posLe a b) := by unfold posLe; infer_instance

theorem isBefore_iff_posLe (a b : Position) :
    a.isBefore b = true ↔ posLe a b := by
  simp only [Position.isBefore, Position.isEqualTo, Position.isSameLineThan,
    Bool.or_eq_true, Bool.and_eq_true, beq_iff_eq, decide_eq_true_eq, posLe]
  omega

theorem isEqualTo_iff (a b : Position) : a.isEqualTo b = true ↔ a = b := by
  simp only [Position.isEqualTo, Bool.and_eq_true, beq_iff_eq]
  constructor
  · rintro ⟨h1, h2⟩; cases a; cases b; simp_all
  · rintro rfl; exact ⟨rfl, rfl⟩

/-- Number of the three trichotomy predicates that evaluate to `true` on a
pair of positions: `a.isBefore(b)`, `a.isEqualTo(b)`, `b.isBefore(a)`. -/
def trichotomyCount (a b : Position) : Nat :=
  (a.isBefore b).toNat + (a.isEqualTo b).toNat + (b.isBefore a).toNat

/-- The trichotomy claim as literally stated: exactly one of `a.isBefore(b)`,
`a.isEqualTo(b)`, `b.isBefore(a)` holds. -/
def ExactlyOneOfThree (a b : Position) : Prop :=
  trichotomyCount a b = 1

instance (a b : Position) : Decidable (ExactlyOneOfThree a b) := by
  unfold ExactlyOneOfThree; infer_instance

/-- C1 counterexample: at `a = b = (0,0)` the source's `isBefore` returns
`true` (it includes equality), so all three predicates hold at once and
"exactly one holds" fails. -/
theorem position_trichotomy_cex :
    ¬ ExactlyOneOfThree ⟨0, 0⟩ ⟨0, 0⟩ := by decide

/-- C1 (amended): since `isBefore` includes equality, the three predicates
`a.isBefore(b)`, `a.isEqualTo(b)`, `b.isBefore(a)` are all true when the
positions are equal, and exactly one of them is true otherwise. -/
theorem position_trichotomy_amended (a b : Position) :
    trichotomyCount a b = if a.isEqualTo b then 3 else 1 := by
  have e1 : a.isBefore b = decide (posLe a b) := by
    rw [Bool.eq_iff_iff]; simp [isBefore_iff_posLe]
  have e3 : b.isBefore a = decide (posLe b a) := by
    rw [Bool.eq_iff_iff]; simp [isBefore_iff_posLe]
  have e2 : a.isEqualTo b = decide (a = b) := by
    rw [Bool.eq_iff_iff]; simp [isEqualTo_iff]
  unfold trichotomyCount
  rw [e1, e2, e3]
  by_cases h : a = b
  · subst h
    have : posLe a a := Or.inr ⟨rfl, le_refl _⟩
    simp [this]
  · have hlc : a.line ≠ b.line ∨ a.character ≠ b.character := by
      by_contra hcon
      push_neg at hcon
      exact h (by cases a; cases b; simp_all)
    by_cases hle : posLe a b
    · have hnot : ¬ posLe b a := by unfold posLe at *; omega
      simp [h, hle, hnot]
    · have hyes : posLe b a := by unfold posLe at *; omega
      simp [h, hle, hyes]

/-! ## Selection (modelled from the spec)

The `Selection` class file is not among the visible sources; only its call
sites and the spec describe it. -/

/-- Modelled from the spec: `Selection` is an ordered pair of `Position`s
(§3).  The source's field `end` is a reserved word in Lean, so it is named
`stop` here. -/
structure Selection where
  start : Position
  stop : Position
deriving DecidableEq, Repr

namespace Selection

/-- Modelled from the spec: a degenerate selection (cursor) at `(line, character)`. -/
def cursorAt (line character : Nat) : Selection :=
  ⟨⟨line, character⟩, ⟨line, character⟩⟩

/-- Modelled from the spec: a degenerate selection (cursor) at a position. -/
def cursorAtPosition (p : Position) : Selection := ⟨p, p⟩

/-- Modelled from the spec: the commit algorithm sorts modifications by
descending start position, comparing starts with `Position.isBefore`
(which includes equality). -/
def startsBefore (a b : Selection) : Bool :=
  a.start.isBefore b.start

/-- Modelled from the spec: the end markers "set or extend a selection"
(§4.4); `extendEndToStartOf` keeps the receiver's start and moves its end to
the argument's start. -/
def extendEndToStartOf (a b : Selection) : Selection :=
  ⟨a.start, b.start⟩

end Selection

/-- `Modification` from the editor contract: a replacement `code` for a
`selection` range over the pre-edit buffer. -/
structure Modification where
  code : String
  selection : Selection
deriving DecidableEq, Repr

/-! ## The in-memory buffer (`InMemoryEditor`)

JS strings are modelled as `List Char`; the code matrix is
`List Line` where `Line = List Entry` and an `Entry` is one cell of the
source's `string[]` line: a single character after construction, or a whole
replacement string inserted by a commit. -/

abbrev Entry := List Char
abbrev Line := List Entry
abbrev CodeMatrix := List Line

/-- The deleted-line sentinel of the in-memory editor. -/
def DELETED_LINE : List Char := "___DELETED_LINE___".data

/-- Cursor marker of the fixture protocol. -/
def CURSOR : List Char := "[cursor]".data

/-- Selection-start marker of the fixture protocol. -/
def SELECTION_START : List Char := "[start]".data

/-- Selection-end marker of the fixture protocol. -/
def SELECTION_END : List Char := "[end]".data

/-- Models `String.prototype.split("\n")`: splits a character list at every
newline; the empty string yields one empty line. -/
def splitLines (cs : List Char) : List (List Char) :=
  cs.foldr
    (fun c acc =>
      if c = '\n' then [] :: acc
      else
        match acc with
        | [] => [[c]]
        | h :: t => (c :: h) :: t)
    [[]]

/-- Models `String.prototype.indexOf(pat)` for a non-empty pattern: index of
the first occurrence of `pat` in `l`, if any. -/
def strIndexOf (l pat : List Char) : Option Nat :=
  match l with
  | [] => if pat.isEmpty then some 0 else none
  | _ :: rest =>
    if pat.isPrefixOf l then some 0
    else (strIndexOf rest pat).map (· + 1)

/-- Models `String.prototype.replace(pat, "")`: removes the first occurrence
of `pat`, if any. -/
def replaceFirst (l pat : List Char) : List Char :=
  match strIndexOf l pat with
  | none => l
  | some i => l.take i ++ l.drop (i + pat.length)

/-- One line of `setCodeMatrix`'s marker stripping: the source removes (the
first occurrence of) `CURSOR`, then `SELECTION_START`, then `SELECTION_END`
from every line. -/
def stripMarkers (l : List Char) : List Char :=
  replaceFirst (replaceFirst (replaceFirst l CURSOR) SELECTION_START) SELECTION_END

/-- `InMemoryEditor.setCodeMatrix`: split the code into lines, strip the
three markers, and split every line into single characters. -/
def setCodeMatrix (code : String) : CodeMatrix :=
  (splitLines code.data).map (fun line => (stripMarkers line).map (fun c => [c]))

/-- Joins the lines back with `"\n"` (models `Array.prototype.join("\n")`). -/
def intercalateNl (ls : List (List Char)) : List Char :=
  match ls with
  | [] => []
  | [l] => l
  | l :: rest => l ++ '\n' :: intercalateNl rest

/-- `InMemoryEditor.read`: join every line's entries, drop lines equal to the
`DELETED_LINE` sentinel, and join the rest with newlines. -/
def read (M : CodeMatrix) : String :=
  ⟨intercalateNl ((M.map List.flatten).filter (fun l => decide (l ≠ DELETED_LINE)))⟩

/-- Models `Array.prototype.splice(start, deleteCount, item)` on a line:
removes `delCnt` entries at `start` and inserts `item` there.  `Nat`
subtraction at call sites mirrors JS clamping a negative delete count to
zero, and `take`/`drop` mirror its clamping of out-of-range indices. -/
def jsSplice (l : Line) (start delCnt : Nat) (item : Entry) : Line :=
  l.take start ++ item :: l.drop (start + delCnt)

/-- The `for` loop of the multi-line commit: set lines
`first, …, first + cnt - 1` to `[DELETED_LINE]`. -/
def markDeleted (M : CodeMatrix) (first cnt : Nat) : CodeMatrix :=
  (List.range' first cnt).foldl (fun A i => A.set i [DELETED_LINE]) M

/-- One iteration of the commit loop of `InMemoryEditor.readThenWrite`:
single-line ranges are spliced in place; multi-line ranges truncate the start
line, append the replacement and the tail of the end line, and mark every
line in `(start.line, end.line]` deleted; an inverted range (end line before
start line) matches neither branch and is skipped. -/
def applyMod (M : CodeMatrix) (m : Modification) : CodeMatrix :=
  let s := m.selection.start
  let e := m.selection.stop
  if s.line = e.line then
    M.set s.line
      (jsSplice (M.getD s.line []) s.character (e.character - s.character) m.code.data)
  else if s.line < e.line then
    let startLine :=
      jsSplice (M.getD s.line []) s.character
        ((M.getD s.line []).length - s.character) m.code.data
    let merged := startLine ++ (M.getD e.line []).drop e.character
    markDeleted (M.set s.line merged) (s.line + 1) (e.line - s.line)
  else M

/-- The read phase of `InMemoryEditor.readThenWrite`: the sub-matrix covered
by the selection — one sliced line, or head-tail slices plus whole lines in
between; an inverted selection yields the empty matrix. -/
def extractMatrix (M : CodeMatrix) (sel : Selection) : CodeMatrix :=
  let s := sel.start
  let e := sel.stop
  if s.line = e.line then
    [((M.getD s.line []).drop s.character).take (e.character - s.character)]
  else if s.line < e.line then
    ((M.getD s.line []).drop s.character)
      :: ((List.range' (s.line + 1) (e.line - (s.line + 1))).map (fun i => M.getD i []))
      ++ [(M.getD e.line []).take e.character]
  else []

/-- The commit order: `a` may precede `b` when `b`'s start is not after
`a`'s — this is the order induced by the source's comparator
`(a, b) => (a.selection.startsBefore(b.selection) ? 1 : -1)`. -/
def rDesc (a b : Modification) : Prop :=
  Selection.startsBefore b.selection a.selection = true

instance : DecidableRel rDesc := fun a b => by unfold rDesc; infer_instance

/-- Models `Array.prototype.sort` with the source's comparator: right-most
starts first.  On modification lists with pairwise distinct starts any
comparison sort agrees with insertion sort, so the model is exact there. -/
def sortMods (mods : List Modification) : List Modification :=
  List.insertionSort rDesc mods

/-- The mutable state of an `InMemoryEditor`: its code matrix and current
selection. -/
structure EditorState where
  codeMatrix : CodeMatrix
  selection : Selection
deriving DecidableEq, Repr

/-- `InMemoryEditor.readThenWrite`: optionally move the cursor, read the
selection's text, compute the modifications from it, sort them right-most
first and commit them in sequence to the same matrix. -/
def readThenWrite (st : EditorState) (selection : Selection)
    (getModifications : String → List Modification)
    (newCursorPosition : Option Position) : EditorState :=
  let sel' :=
    match newCursorPosition with
    | some p => Selection.cursorAtPosition p
    | none => st.selection
  let readCode := read (extractMatrix st.codeMatrix selection)
  let M' := (sortMods (getModifications readCode)).foldl applyMod st.codeMatrix
  { codeMatrix := M', selection := sel' }

/-- One line of `setSelectionFromCursor`'s reduction: record a cursor marker,
then (after removing it) a start marker, then (after removing that) an end
marker, each overwriting or extending the running selection. -/
def scanLine (lineIndex : Nat) (sel : Selection) (line : List Char) : Selection :=
  let sel₁ :=
    match strIndexOf line CURSOR with
    | some i => Selection.cursorAt lineIndex i
    | none => sel
  let line₁ := replaceFirst line CURSOR
  let sel₂ :=
    match strIndexOf line₁ SELECTION_START with
    | some i => Selection.cursorAt lineIndex i
    | none => sel₁
  let line₂ := replaceFirst line₁ SELECTION_START
  match strIndexOf line₂ SELECTION_END with
  | some i => sel₂.extendEndToStartOf (Selection.cursorAt lineIndex i)
  | none => sel₂

/-- The indexed fold of `setSelectionFromCursor` over the lines. -/
def scanLines (lineIndex : Nat) (sel : Selection) : List (List Char) → Selection
  | [] => sel
  | l :: rest => scanLines (lineIndex + 1) (scanLine lineIndex sel l) rest

/-- `InMemoryEditor.setSelectionFromCursor`. -/
def setSelectionFromCursor (code : String) (defaultSelection : Selection) : Selection :=
  scanLines 0 defaultSelection (splitLines code.data)

/-- The `InMemoryEditor` constructor: build the matrix and decode the marker
selection, defaulting to a cursor at the given position. -/
def mkEditor (code : String) (position : Position) : EditorState :=
  { codeMatrix := setCodeMatrix code
    selection := setSelectionFromCursor code (Selection.cursorAtPosition position) }

/-- An `InMemoryEditor` together with its `otherFiles` map (paths modelled as
strings, each mapped to the editor constructed by `writeIn`). -/
structure InMemoryEditorState where
  main : EditorState
  otherFiles : List (String × EditorState)
deriving DecidableEq, Repr

/-- Models `Map.prototype.set` on an insertion-ordered association list:
replace the value at an existing key in place, else append the new binding.
Used both by `InMemoryEditor.writeIn` (`otherFiles`) and by the discovery
accumulator of `findApplicableRefactorings`. -/
def jsMapSet {α : Type} (m : List (String × α)) (k : String) (v : α) :
    List (String × α) :=
  if m.any (fun p => p.1 == k) then
    m.map (fun p => if p.1 == k then (k, v) else p)
  else m ++ [(k, v)]

/-- `InMemoryEditor.writeIn`: store a fresh `InMemoryEditor` for the path. -/
def writeIn (st : InMemoryEditorState) (path : String) (code : String) :
    InMemoryEditorState :=
  { st with otherFiles := jsMapSet st.otherFiles path (mkEditor code ⟨0, 0⟩) }

/-- `InMemoryEditor.codeOf`: the stored editor's code, or `""` when the path
was never stored. -/
def codeOf (st : InMemoryEditorState) (path : String) : String :=
  match st.otherFiles.find? (fun p => p.1 == path) with
  | none => ""
  | some p => read p.2.codeMatrix

/-- The full constructor state: `otherFiles` starts empty. -/
def mkFullEditor (code : String) (position : Position) : InMemoryEditorState :=
  { main := mkEditor code position, otherFiles := [] }

/-- A sequence of `writeIn` calls. -/
def applyWrites (st : InMemoryEditorState) (ws : List (String × String)) :
    InMemoryEditorState :=
  ws.foldl (fun s pc => writeIn s pc.1 pc.2) st

/-! ## Easy claims: C3, C8, C9, C10 -/

/-- C3: on the buffer with lines `["abc", "def", "ghi"]`, committing a single
modification that replaces selection `(0,1)-(2,2)` with `"X"` through
`readThenWrite` serializes to `"aXi"`: start-line prefix, replacement,
end-line suffix, middle line removed. -/
theorem multiline_merge_example :
    read ((readThenWrite (mkEditor "abc\ndef\nghi" ⟨0, 0⟩) ⟨⟨0, 1⟩, ⟨2, 2⟩⟩
      (fun _ => [⟨"X", ⟨⟨0, 1⟩, ⟨2, 2⟩⟩⟩]) none).codeMatrix) = "aXi" := by decide

/-- C8: after `readThenWrite`, the selection is a cursor at
`newCursorPosition` when that argument is supplied, and is exactly the
pre-call selection when it is omitted. -/
theorem readThenWrite_selection (st : EditorState) (sel : Selection)
    (f : String → List Modification) (p : Position) :
    (readThenWrite st sel f (some p)).selection = Selection.cursorAtPosition p ∧
    (readThenWrite st sel f none).selection = st.selection :=
  ⟨rfl, rfl⟩

/-- C9: an inverted `readThenWrite` selection (end line strictly before start
line) reads the empty string — so the empty string is what reaches
`getModifications` — and an inverted modification range is skipped by the
commit loop, leaving the matrix unchanged. -/
theorem readThenWrite_inverted (st : EditorState) (sel : Selection)
    (M : CodeMatrix) (m : Modification) (f : String → List Modification)
    (p : Option Position)
    (h1 : sel.stop.line < sel.start.line)
    (h2 : m.selection.stop.line < m.selection.start.line) :
    read (extractMatrix st.codeMatrix sel) = "" ∧
    (readThenWrite st sel f p).codeMatrix =
      (sortMods (f "")).foldl applyMod st.codeMatrix ∧
    applyMod M m = M := by
  have hread : read (extractMatrix st.codeMatrix sel) = "" := by
    unfold extractMatrix
    have e1 : ¬ (sel.start.line = sel.stop.line) := by omega
    have e2 : ¬ (sel.start.line < sel.stop.line) := by omega
    simp only [e1, e2, if_false]
    decide
  refine ⟨hread, ?_, ?_⟩
  · unfold readThenWrite
    rw [hread]
  · unfold applyMod
    have e1 : ¬ (m.selection.start.line = m.selection.stop.line) := by omega
    have e2 : ¬ (m.selection.start.line < m.selection.stop.line) := by omega
    simp only [e1, e2, if_false]

/-- Witness for `readThenWrite_inverted` at a concrete editor, selection and
modification. -/
theorem readThenWrite_inverted_witness :
    read (extractMatrix (mkEditor "ab\ncd" ⟨0, 0⟩).codeMatrix ⟨⟨1, 0⟩, ⟨0, 0⟩⟩) = "" ∧
    (readThenWrite (mkEditor "ab\ncd" ⟨0, 0⟩) ⟨⟨1, 0⟩, ⟨0, 0⟩⟩
      (fun _ => [⟨"Z", ⟨⟨1, 1⟩, ⟨0, 0⟩⟩⟩]) none).codeMatrix =
      (sortMods ((fun _ => [⟨"Z", ⟨⟨1, 1⟩, ⟨0, 0⟩⟩⟩]) "")).foldl applyMod
        (mkEditor "ab\ncd" ⟨0, 0⟩).codeMatrix ∧
    applyMod (mkEditor "ab\ncd" ⟨0, 0⟩).codeMatrix ⟨"Z", ⟨⟨1, 1⟩, ⟨0, 0⟩⟩⟩ =
      (mkEditor "ab\ncd" ⟨0, 0⟩).codeMatrix :=
  readThenWrite_inverted (mkEditor "ab\ncd" ⟨0, 0⟩) ⟨⟨1, 0⟩, ⟨0, 0⟩⟩
    (mkEditor "ab\ncd" ⟨0, 0⟩).codeMatrix ⟨"Z", ⟨⟨1, 1⟩, ⟨0, 0⟩⟩⟩
    (fun _ => [⟨"Z", ⟨⟨1, 1⟩, ⟨0, 0⟩⟩⟩]) none (by decide) (by decide)

/-- Keys of an association map after a `set` are old keys or the new key. -/
theorem keys_jsMapSet {α : Type} (m : List (String × α)) (k : String)
    (v : α) (k' : String)
    (h1 : ¬ k' ∈ m.map Prod.fst) (h2 : k' ≠ k) :
    ¬ k' ∈ (jsMapSet m k v).map Prod.fst := by
  intro hmem
  unfold jsMapSet at hmem
  split at hmem
  · rw [List.map_map] at hmem
    rcases List.mem_map.mp hmem with ⟨q, hq, he⟩
    by_cases hqk : q.1 == k
    · simp only [Function.comp, hqk, if_pos] at he
      exact h2 he.symm
    · simp only [Function.comp, hqk, if_neg, Bool.false_eq_true,
        not_false_eq_true, ite_false] at he
      exact h1 (he ▸ List.mem_map_of_mem Prod.fst hq)
  · rw [List.map_append] at hmem
    rcases List.mem_append.mp hmem with h | h
    · exact h1 h
    · simp only [List.map_cons, List.map_nil, List.mem_singleton] at h
      exact h2 h

theorem codeOf_unwritten_aux (ws : List (String × String)) :
    ∀ (st : InMemoryEditorState) (p : String),
      p ∉ st.otherFiles.map Prod.fst → p ∉ ws.map Prod.fst →
      codeOf (applyWrites st ws) p = "" := by
  induction ws with
  | nil =>
    intro st p h1 _
    unfold applyWrites codeOf
    simp only [List.foldl_nil]
    have hnone : st.otherFiles.find? (fun q => q.1 == p) = none := by
      apply List.find?_eq_none.mpr
      intro x hx
      simp only [beq_iff_eq]
      intro hc
      exact h1 (hc ▸ List.mem_map_of_mem Prod.fst hx)
    rw [hnone]
  | cons w rest ih =>
    intro st p h1 h2
    unfold applyWrites
    simp only [List.foldl_cons]
    simp only [List.map_cons, List.mem_cons, not_or] at h2
    exact ih (writeIn st w.1 w.2) p
      (keys_jsMapSet st.otherFiles w.1 _ p h1 h2.1) h2.2

/-- C10: a path never written via `writeIn` resolves through `codeOf` to the
empty string rather than failing. -/
theorem codeOf_never_written (code : String) (pos : Position)
    (ws : List (String × String)) (p : String) (h : p ∉ ws.map Prod.fst) :
    codeOf (applyWrites (mkFullEditor code pos) ws) p = "" :=
  codeOf_unwritten_aux ws (mkFullEditor code pos) p (by simp [mkFullEditor]) h

/-- Witness for `codeOf_never_written` at a concrete write list and path. -/
theorem codeOf_never_written_witness :
    ("b" : String) ∉ ([("a", "x")] : List (String × String)).map Prod.fst ∧
    codeOf (applyWrites (mkFullEditor "code" ⟨0, 0⟩) [("a", "x")]) "b" = "" :=
  ⟨by decide, codeOf_never_written "code" ⟨0, 0⟩ [("a", "x")] "b" (by decide)⟩

/-! ## C4: marker decoding -/

/-- A fixture line on which the marker scan finds nothing: no cursor, start
or end marker. -/
def scanClean (l : List Char) : Prop :=
  strIndexOf l CURSOR = none ∧ strIndexOf l SELECTION_START = none ∧
    strIndexOf l SELECTION_END = none

instance (l : List Char) : Decidable (scanClean l) := by
  unfold scanClean; infer_instance

theorem replaceFirst_of_none {l pat : List Char} (h : strIndexOf l pat = none) :
    replaceFirst l pat = l := by
  unfold replaceFirst; rw [h]

theorem scanLine_clean (i : Nat) (sel : Selection) (l : List Char)
    (h : scanClean l) : scanLine i sel l = sel := by
  obtain ⟨hc, hs, he⟩ := h
  simp only [scanLine]
  rw [hc, replaceFirst_of_none hc, hs, replaceFirst_of_none hs, he]

theorem scanLines_clean (post : List (List Char)) :
    ∀ (i : Nat) (sel : Selection), (∀ l ∈ post, scanClean l) →
      scanLines i sel post = sel := by
  induction post with
  | nil => intro i sel _; rfl
  | cons l rest ih =>
    intro i sel h
    show scanLines (i + 1) (scanLine i sel l) rest = sel
    rw [scanLine_clean i sel l (h l (List.mem_cons_self _ _))]
    exact ih _ _ (fun x hx => h x (List.mem_cons_of_mem _ hx))

theorem scanLines_append (pre rest : List (List Char)) :
    ∀ (i : Nat) (sel : Selection),
      scanLines i sel (pre ++ rest) =
        scanLines (i + pre.length) (scanLines i sel pre) rest := by
  induction pre with
  | nil => intro i sel; simp [scanLines]
  | cons l t ih =>
    intro i sel
    show scanLines (i + 1) (scanLine i sel l) (t ++ rest) = _
    rw [ih]
    have : i + 1 + t.length = i + (l :: t).length := by
      simp [List.length_cons]; omega
    rw [this]
    rfl

/-- A line whose only effective marker is a cursor marker overwrites the
running selection with a cursor at its position. -/
theorem scanLine_cursor (i : Nat) (sel : Selection) (l : List Char) (c : Nat)
    (hc : strIndexOf l CURSOR = some c)
    (hs : strIndexOf (replaceFirst l CURSOR) SELECTION_START = none)
    (he : strIndexOf (replaceFirst l CURSOR) SELECTION_END = none) :
    scanLine i sel l = Selection.cursorAt i c := by
  simp only [scanLine]
  rw [hc, hs, replaceFirst_of_none hs, he]

/-- A line whose only effective marker is a start marker overwrites the
running selection with a cursor at its position. -/
theorem scanLine_start (i : Nat) (sel : Selection) (l : List Char) (c : Nat)
    (hc : strIndexOf l CURSOR = none)
    (hs : strIndexOf l SELECTION_START = some c)
    (he : strIndexOf (replaceFirst l SELECTION_START) SELECTION_END = none) :
    scanLine i sel l = Selection.cursorAt i c := by
  simp only [scanLine]
  rw [hc, replaceFirst_of_none hc, hs, he]

/-- A line whose only effective marker is an end marker extends the running
selection's end to the marker position. -/
theorem scanLine_endMarker (i : Nat) (sel : Selection) (l : List Char) (c : Nat)
    (hc : strIndexOf l CURSOR = none)
    (hs : strIndexOf l SELECTION_START = none)
    (he : strIndexOf l SELECTION_END = some c) :
    scanLine i sel l = ⟨sel.start, ⟨i, c⟩⟩ := by
  simp only [scanLine]
  rw [hc, replaceFirst_of_none hc, hs, replaceFirst_of_none hs, he]
  rfl

/-- C4 counterexample: in `"[cursor]a\n[cursor]b"` the first cursor marker is
at `(0,0)`, but the constructed editor's selection is the cursor at `(1,0)` —
the scan overwrites the selection on every line containing a cursor marker,
so the first occurrence does not win. -/
theorem marker_first_cursor_cex :
    (mkEditor "[cursor]a\n[cursor]b" ⟨0, 0⟩).selection = Selection.cursorAt 1 0 ∧
    Selection.cursorAt 1 0 ≠ Selection.cursorAt 0 0 := by decide

/-- C4 (amended): during the single top-to-bottom scan the most recently
observed cursor marker (at the first occurrence within its line) sets the
cursor selection — later lines overwrite earlier ones — and the most recently
observed start/end pair wins.  Part one: if the last marker-bearing line `L`
carries a cursor marker (and no start/end), the result is a cursor at
`(index of L, column of the cursor marker in L)`, whatever the earlier lines
contained.  Part two: if the last marker-bearing lines are a start line `Ls`
followed (after marker-free lines `mid`) by an end line `Le`, the result runs
from the start marker to the end marker, whatever the earlier lines
contained. -/
theorem marker_decoding_amended
    (code : String) (d : Selection)
    (pre post : List (List Char)) (L : List Char) (c : Nat)
    (pre₂ mid post₂ : List (List Char)) (Ls Le : List Char) (cs ce : Nat) :
    ((splitLines code.data = pre ++ L :: post ∧
      strIndexOf L CURSOR = some c ∧
      strIndexOf (replaceFirst L CURSOR) SELECTION_START = none ∧
      strIndexOf (replaceFirst L CURSOR) SELECTION_END = none ∧
      (∀ l ∈ post, scanClean l)) →
      setSelectionFromCursor code d = Selection.cursorAt pre.length c) ∧
    ((splitLines code.data = pre₂ ++ Ls :: (mid ++ Le :: post₂) ∧
      strIndexOf Ls CURSOR = none ∧
      strIndexOf Ls SELECTION_START = some cs ∧
      strIndexOf (replaceFirst Ls SELECTION_START) SELECTION_END = none ∧
      (∀ l ∈ mid, scanClean l) ∧
      strIndexOf Le CURSOR = none ∧
      strIndexOf Le SELECTION_START = none ∧
      strIndexOf Le SELECTION_END = some ce ∧
      (∀ l ∈ post₂, scanClean l)) →
      setSelectionFromCursor code d =
        ⟨⟨pre₂.length, cs⟩, ⟨pre₂.length + 1 + mid.length, ce⟩⟩) := by
  constructor
  · rintro ⟨hsplit, hc, hs, he, hpost⟩
    unfold setSelectionFromCursor
    rw [hsplit, scanLines_append]
    show scanLines (0 + pre.length + 1)
      (scanLine (0 + pre.length) (scanLines 0 d pre) L) post = _
    rw [scanLine_cursor _ _ _ _ hc hs he, scanLines_clean post _ _ hpost]
    simp
  · rintro ⟨hsplit, hcs, hss, hse, hmid, hce, hses, hee, hpost⟩
    unfold setSelectionFromCursor
    rw [hsplit, scanLines_append]
    show scanLines (0 + pre₂.length + 1)
      (scanLine (0 + pre₂.length) (scanLines 0 d pre₂) Ls) (mid ++ Le :: post₂) = _
    rw [scanLine_start _ _ _ _ hcs hss hse, scanLines_append]
    rw [scanLines_clean mid _ _ hmid]
    show scanLines (0 + pre₂.length + 1 + mid.length + 1)
      (scanLine (0 + pre₂.length + 1 + mid.length)
        (Selection.cursorAt (0 + pre₂.length) cs) Le) post₂ = _
    rw [scanLine_endMarker _ _ _ _ hce hses hee, scanLines_clean post₂ _ _ hpost]
    simp only [Nat.zero_add]
    rfl

/-- Witness for `marker_decoding_amended`: part one on
`"a[cursor]b\nc[cursor]d\nef"` (last cursor wins), part two on
`"[start]x[end]\n[start]a\nmm\nb[end]\ntail"` (last start/end pair wins). -/
theorem marker_decoding_amended_witness :
    setSelectionFromCursor "a[cursor]b\nc[cursor]d\nef" (Selection.cursorAt 0 0) =
      Selection.cursorAt 1 1 ∧
    setSelectionFromCursor "[start]x[end]\n[start]a\nmm\nb[end]\ntail"
      (Selection.cursorAt 0 0) = ⟨⟨1, 0⟩, ⟨3, 1⟩⟩ := by
  constructor
  · exact (marker_decoding_amended "a[cursor]b\nc[cursor]d\nef"
      (Selection.cursorAt 0 0) ["a[cursor]b".data] ["ef".data] "c[cursor]d".data 1
      [] [] [] [] [] 0 0).1 ⟨by decide, by decide, by decide, by decide, by decide⟩
  · exact (marker_decoding_amended "[start]x[end]\n[start]a\nmm\nb[end]\ntail"
      (Selection.cursorAt 0 0) [] [] [] 0
      ["[start]x[end]".data] ["mm".data] ["tail".data]
      "[start]a".data "b[end]".data 0 1).2
      ⟨by decide, by decide, by decide, by decide, by decide, by decide,
        by decide, by decide, by decide⟩

/-! ## C5: discovery accumulates a deduplicated, first-claimed-ordered set

`findApplicableRefactorings` walks the AST once; at every node each
candidate's completion callback may fire and record
`applicableRefactorings.set(key, refactoring)`.  The traversal itself is the
external Babel `traverseAST`; its observable effect on the accumulator is the
sequence of `(key, refactoring)` recordings in traversal order, which the
embedding takes as input. -/

/-- The discovery accumulator: fold the recorded `(key, refactoring)` claim
events into the insertion-ordered map, exactly as the completion callback
does. -/
def discoveryMap {R : Type} (claims : List (String × R)) : List (String × R) :=
  claims.foldl (fun m e => jsMapSet m e.1 e.2) []

/-- `findApplicableRefactorings`'s result: `Array.from(map.values())`. -/
def findApplicableRefactorings {R : Type} (claims : List (String × R)) : List R :=
  (discoveryMap claims).map Prod.snd

/-- Follows the spec's words ("the deduplicated set, in first-claimed
order"): keep each key's first occurrence, in order. -/
def firstClaimedOrder (ks : List String) : List String :=
  ks.foldl (fun acc k => if k ∈ acc then acc else acc ++ [k]) []

theorem any_beq_iff {α : Type} (m : List (String × α)) (k : String) :
    (m.any (fun p => p.1 == k) = true) ↔ k ∈ m.map Prod.fst := by
  simp only [List.any_eq_true, beq_iff_eq, List.mem_map]

/-- `Map.set` keeps the key sequence when the key is present, else appends
the key. -/
theorem map_fst_jsMapSet {α : Type} (m : List (String × α)) (k : String) (v : α) :
    (jsMapSet m k v).map Prod.fst =
      if k ∈ m.map Prod.fst then m.map Prod.fst else m.map Prod.fst ++ [k] := by
  unfold jsMapSet
  by_cases h : k ∈ m.map Prod.fst
  · rw [if_pos ((any_beq_iff m k).mpr h), if_pos h, List.map_map]
    apply List.map_congr_left
    intro p _
    by_cases hp : p.1 = k
    · simp [hp]
    · simp [hp]
  · rw [if_neg (fun hc => h ((any_beq_iff m k).mp hc)), if_neg h,
      List.map_append]
    rfl

theorem discoveryMap_keys_aux {R : Type} (claims : List (String × R)) :
    ∀ (m : List (String × R)),
      (claims.foldl (fun m e => jsMapSet m e.1 e.2) m).map Prod.fst =
        (claims.map Prod.fst).foldl
          (fun acc k => if k ∈ acc then acc else acc ++ [k]) (m.map Prod.fst) := by
  induction claims with
  | nil => intro m; rfl
  | cons e rest ih =>
    intro m
    simp only [List.foldl_cons, List.map_cons]
    rw [ih, map_fst_jsMapSet]

theorem firstClaimedOrder_step_nodup (acc : List String) (k : String)
    (h : acc.Nodup) : (if k ∈ acc then acc else acc ++ [k]).Nodup := by
  by_cases hk : k ∈ acc
  · simpa [hk]
  · simp [hk, List.nodup_append, h]

theorem firstClaimedOrder_fold_nodup (ks : List String) :
    ∀ acc : List String, acc.Nodup →
      (ks.foldl (fun acc k => if k ∈ acc then acc else acc ++ [k]) acc).Nodup := by
  induction ks with
  | nil => intro acc h; exact h
  | cons k rest ih =>
    intro acc h
    exact ih _ (firstClaimedOrder_step_nodup acc k h)

theorem firstClaimedOrder_fold_mem (ks : List String) :
    ∀ (acc : List String) (k' : String),
      k' ∈ ks.foldl (fun acc k => if k ∈ acc then acc else acc ++ [k]) acc ↔
        k' ∈ acc ∨ k' ∈ ks := by
  induction ks with
  | nil => intro acc k'; simp
  | cons k rest ih =>
    intro acc k'
    simp only [List.foldl_cons, List.mem_cons]
    rw [ih]
    by_cases hk : k ∈ acc
    · simp only [if_pos hk]
      constructor
      · rintro (h | h)
        · exact Or.inl h
        · exact Or.inr (Or.inr h)
      · rintro (h | h | h)
        · exact Or.inl h
        · exact Or.inl (h ▸ hk)
        · exact Or.inr h
    · simp only [if_neg hk, List.mem_append, List.mem_singleton]
      tauto

/-- C5: the discovery result holds each claimed refactoring identifier
exactly once (its key sequence is duplicate-free and has exactly the claimed
keys), ordered by first claim, however often and in whatever pattern the
traversal re-claimed them; the returned refactorings are the map's values in
that key order. -/
theorem discovery_dedup_first_order {R : Type} (claims : List (String × R)) :
    (discoveryMap claims).map Prod.fst = firstClaimedOrder (claims.map Prod.fst) ∧
    ((discoveryMap claims).map Prod.fst).Nodup ∧
    (∀ k, k ∈ (discoveryMap claims).map Prod.fst ↔ k ∈ claims.map Prod.fst) ∧
    findApplicableRefactorings claims = (discoveryMap claims).map Prod.snd := by
  have hkeys : (discoveryMap claims).map Prod.fst =
      firstClaimedOrder (claims.map Prod.fst) := by
    unfold discoveryMap firstClaimedOrder
    rw [discoveryMap_keys_aux claims []]
    rfl
  refine ⟨hkeys, ?_, ?_, rfl⟩
  · rw [hkeys]
    exact firstClaimedOrder_fold_nodup _ [] List.nodup_nil
  · intro k
    rw [hkeys]
    unfold firstClaimedOrder
    rw [firstClaimedOrder_fold_mem]
    simp

/-! ## C6: visitor dispatch (`RefactoringActionProvider.visit` /
`getVisitorNode`)

Per the TS `Visitor` type a declared key holds either a callback function
(the enter shorthand) or an object whose members may or may not be
functions.  Callbacks are abstracted as identifiers; `t.isType` is an
external supertype predicate and is abstracted as a boolean function. -/

/-- A visitor key's value: enter-shorthand function, or object of optionally
function-valued members. -/
inductive VisitorValue where
  | fn (cb : Nat)
  | obj (members : List (Option Nat))
deriving DecidableEq, Repr

/-- A visitor object: keys in declaration order. -/
abbrev Visitor := List (String × VisitorValue)

/-- `RefactoringActionProvider.getVisitorNode`: the exact key for the node's
concrete type if declared, else the first declared key whose category
contains the concrete type per `isType`, else null. -/
def getVisitorNode (visitor : Visitor) (nodeType : String)
    (isType : String → String → Bool) : Option VisitorValue :=
  match visitor.find? (fun p => p.1 == nodeType) with
  | some p => some p.2
  | none =>
    match visitor.find? (fun p => isType nodeType p.1) with
    | some p => some p.2
    | none => none

/-- The keyed calls `RefactoringActionProvider.visit` makes from the
resolved visitor node: a function value is invoked as the enter shorthand, an
object's function-valued members are invoked in order, and a null resolution
invokes nothing. -/
def keyedCallbacks (visitor : Visitor) (nodeType : String)
    (isType : String → String → Bool) : List Nat :=
  match getVisitorNode visitor nodeType isType with
  | some (.fn cb) => [cb]
  | some (.obj ms) => ms.filterMap id
  | none => []

theorem find?_cons_pos {α : Type} (P : α → Bool) (x : α) (l : List α)
    (h : P x = true) : (x :: l).find? P = some x :=
  List.find?_cons_of_pos l h

theorem find?_cons_neg {α : Type} (P : α → Bool) (x : α) (l : List α)
    (h : P x = false) : (x :: l).find? P = l.find? P :=
  List.find?_cons_of_neg l (by simp [h])

theorem getVisitorNode_scan (nodeType : String) (isType : String → String → Bool) :
    ∀ visitor : Visitor, visitor.find? (fun p => p.1 == nodeType) = none →
      (∃ pre k v post, visitor = pre ++ (k, v) :: post ∧
          (∀ p ∈ pre, isType nodeType p.1 = false) ∧ isType nodeType k = true ∧
          getVisitorNode visitor nodeType isType = some v) ∨
      ((∀ p ∈ visitor, isType nodeType p.1 = false) ∧
        getVisitorNode visitor nodeType isType = none) := by
  intro visitor
  induction visitor with
  | nil =>
    intro _
    right
    exact ⟨fun p hp => absurd hp (List.not_mem_nil p), rfl⟩
  | cons a rest ih =>
    intro h
    cases hb : (a.1 == nodeType) with
    | true =>
      exfalso
      rw [find?_cons_pos (fun q => q.1 == nodeType) a rest hb] at h
      cases h
    | false =>
    have hrest : rest.find? (fun p => p.1 == nodeType) = none := by
      rw [find?_cons_neg (fun q => q.1 == nodeType) a rest hb] at h
      exact h
    have hGV : getVisitorNode (a :: rest) nodeType isType =
        match (a :: rest).find? (fun p => isType nodeType p.1) with
        | some p => some p.2
        | none => none := by
      unfold getVisitorNode
      rw [h]
    have hGVrest : getVisitorNode rest nodeType isType =
        match rest.find? (fun p => isType nodeType p.1) with
        | some p => some p.2
        | none => none := by
      unfold getVisitorNode
      rw [hrest]
    cases hat : isType nodeType a.1 with
    | true =>
      left
      refine ⟨[], a.1, a.2, rest, by simp, fun p hp => absurd hp (List.not_mem_nil p),
        hat, ?_⟩
      rw [hGV, find?_cons_pos (fun q => isType nodeType q.1) a rest hat]
    | false =>
      have hstep : (a :: rest).find? (fun p => isType nodeType p.1) =
          rest.find? (fun p => isType nodeType p.1) :=
        find?_cons_neg (fun q => isType nodeType q.1) a rest hat
      rcases ih hrest with ⟨pre, k, v, post, hsplit, hpre, hk, hres⟩ | ⟨hall, hres⟩
      · left
        refine ⟨a :: pre, k, v, post, by rw [List.cons_append, ← hsplit], ?_, hk, ?_⟩
        · intro p hp
          rcases List.mem_cons.mp hp with h1 | h1
          · exact h1 ▸ hat
          · exact hpre p h1
        · rw [hGV, hstep, ← hGVrest]
          exact hres
      · right
        refine ⟨?_, ?_⟩
        · intro p hp
          rcases List.mem_cons.mp hp with h1 | h1
          · exact h1 ▸ hat
          · exact hall p h1
        · rw [hGV, hstep, ← hGVrest]
          exact hres

/-- C6: dispatch resolves the callback by exact match on the node's concrete
type first; only when no exact key is declared does it scan the declared
keys in order and pick the first whose category contains the concrete type;
and when nothing matches, the resolution is null, no keyed callback is
invoked, and (the dispatch being a total function) no error is raised. -/
theorem visitor_dispatch (visitor : Visitor) (nodeType : String)
    (isType : String → String → Bool) :
    (∀ v, visitor.find? (fun p => p.1 == nodeType) = some v →
        getVisitorNode visitor nodeType isType = some v.2) ∧
    (visitor.find? (fun p => p.1 == nodeType) = none →
        ((∃ pre k v post, visitor = pre ++ (k, v) :: post ∧
            (∀ p ∈ pre, isType nodeType p.1 = false) ∧ isType nodeType k = true ∧
            getVisitorNode visitor nodeType isType = some v) ∨
         ((∀ p ∈ visitor, isType nodeType p.1 = false) ∧
           getVisitorNode visitor nodeType isType = none ∧
           keyedCallbacks visitor nodeType isType = []))) := by
  constructor
  · intro v hv
    unfold getVisitorNode
    rw [hv]
  · intro h
    rcases getVisitorNode_scan nodeType isType visitor h with
      ⟨pre, k, v, post, hsplit, hpre, hk, hres⟩ | ⟨hall, hres⟩
    · exact Or.inl ⟨pre, k, v, post, hsplit, hpre, hk, hres⟩
    · refine Or.inr ⟨hall, hres, ?_⟩
      unfold keyedCallbacks
      rw [hres]

/-- The demonstration visitor for the dispatch witness. -/
def demoVisitor : Visitor :=
  [("Identifier", VisitorValue.fn 1), ("Function", VisitorValue.obj [some 2, none])]

/-- The demonstration supertype predicate for the dispatch witness: only the
category `"Function"` contains `"ArrowFunctionExpression"`. -/
def demoIsType : String → String → Bool :=
  fun node cat => node == "ArrowFunctionExpression" && cat == "Function"

/-- Witness for `visitor_dispatch`: an exact hit on `"Identifier"`, and a
category scan for `"ArrowFunctionExpression"`. -/
theorem visitor_dispatch_witness :
    getVisitorNode demoVisitor "Identifier" demoIsType =
      some (VisitorValue.fn 1) ∧
    ((∃ pre k v post, demoVisitor = pre ++ (k, v) :: post ∧
        (∀ p ∈ pre, demoIsType "ArrowFunctionExpression" p.1 = false) ∧
        demoIsType "ArrowFunctionExpression" k = true ∧
        getVisitorNode demoVisitor "ArrowFunctionExpression" demoIsType = some v) ∨
     ((∀ p ∈ demoVisitor, demoIsType "ArrowFunctionExpression" p.1 = false) ∧
       getVisitorNode demoVisitor "ArrowFunctionExpression" demoIsType = none ∧
       keyedCallbacks demoVisitor "ArrowFunctionExpression" demoIsType = [])) :=
  ⟨(visitor_dispatch demoVisitor "Identifier" demoIsType).1
      ("Identifier", VisitorValue.fn 1) (by decide),
    (visitor_dispatch demoVisitor "ArrowFunctionExpression" demoIsType).2 (by decide)⟩

/-! ## C7: `provideCodeActions` error barrier

`provideCodeActions` returns `NO_ACTION` for ignored files and missing
editors, and wraps discovery in `try … catch { return NO_ACTION }`.  The
host pieces are abstracted: the ignored-file check is a boolean, editor
creation an `Option`, and discovery — which may throw, e.g. when
`t.parse(code)` fails — an `Except`. -/

/-- `RefactoringActionProvider.provideCodeActions`: empty for an ignored
file or a missing editor; otherwise map `buildCodeActionFor` over the
discovered refactorings, and swallow any discovery failure into the empty
action list. -/
def provideCodeActions {E R A : Type} (isIgnoredFile : Bool) (editor : Option E)
    (findApplicable : E → Except String (List R))
    (buildCodeActionFor : R → A) : List A :=
  if isIgnoredFile then []
  else
    match editor with
    | none => []
    | some ed =>
      match findApplicable ed with
      | .ok rs => rs.map buildCodeActionFor
      | .error _ => []

/-- C7: whenever discovery fails (the code does not parse, or the traversal
throws), `provideCodeActions` returns the empty action list; the failure is
swallowed by the `catch` and never reaches the caller — in the embedding,
`provideCodeActions` is a total function into action lists. -/
theorem provideCodeActions_failure {E R A : Type} (ed : E)
    (findApplicable : E → Except String (List R)) (build : R → A) (err : String)
    (h : findApplicable ed = .error err) :
    provideCodeActions false (some ed) findApplicable build = [] := by
  simp [provideCodeActions, h]

/-- Witness for `provideCodeActions_failure` with a concrete always-failing
discovery. -/
theorem provideCodeActions_failure_witness :
    provideCodeActions false (some ())
      (fun _ => (Except.error "ParseFailure" : Except String (List Nat)))
      (fun r => r) = [] :=
  provideCodeActions_failure ()
    (fun _ => (Except.error "ParseFailure" : Except String (List Nat)))
    (fun r => r) "ParseFailure" rfl

/-! ## C2: the commit algorithm versus document-order splicing

The claim: for non-overlapping modifications over the pre-edit buffer,
`readThenWrite` commits right-most first, and the serialized result equals
the original text with every modification's range replaced by its code in
document order, whatever order `getModifications` returned them in. -/

/-- Follows the claim's words: replace one modification's range in the line
list of a text — keep the lines above, merge the start-line prefix, the
replacement and the end-line suffix into one line, keep the lines below. -/
def spliceOne (L : List (List Char)) (m : Modification) : List (List Char) :=
  let s := m.selection.start
  let e := m.selection.stop
  L.take s.line ++
    ((L.getD s.line []).take s.character ++ m.code.data ++
      (L.getD e.line []).drop e.character) ::
    L.drop (e.line + 1)

/-- Follows the claim's words: the original text's lines with every
modification's range replaced by its code in original-document order —
spliced right-most first so every earlier range keeps its coordinates. -/
def documentSplice (asc : List Modification) (L : List (List Char)) :
    List (List Char) :=
  asc.foldr (fun m acc => spliceOne acc m) L

/-- The claim's right-hand side: the original text with every modification's
range replaced by its code, in document order. -/
def spliceIntoText (t : String) (asc : List Modification) : String :=
  ⟨intercalateNl (documentSplice asc (splitLines t.data))⟩

/-- Proof-internal mirror of the matrix commit at the joined-line level that
keeps a `DELETED_LINE` placeholder for every absorbed line, so line indices
are stable. -/
def markDeletedLines (L : List (List Char)) (first cnt : Nat) :
    List (List Char) :=
  (List.range' first cnt).foldl (fun A i => A.set i DELETED_LINE) L

/-- Proof-internal mirror of `applyMod` on joined lines. -/
def spliceKeepOne (L : List (List Char)) (m : Modification) : List (List Char) :=
  let s := m.selection.start
  let e := m.selection.stop
  if s.line = e.line then
    L.set s.line ((L.getD s.line []).take s.character ++ m.code.data ++
      (L.getD s.line []).drop e.character)
  else if s.line < e.line then
    markDeletedLines
      (L.set s.line ((L.getD s.line []).take s.character ++ m.code.data ++
        (L.getD e.line []).drop e.character))
      (s.line + 1) (e.line - s.line)
  else L

/-- Proof-internal: the commit sequence at the joined-line level. -/
def spliceKeep (asc : List Modification) (L : List (List Char)) :
    List (List Char) :=
  asc.foldr (fun m acc => spliceKeepOne acc m) L

/-- Every matrix entry is one character and not a newline — true of every
matrix `setCodeMatrix` builds. -/
def WF (M : CodeMatrix) : Prop :=
  ∀ line ∈ M, ∀ x ∈ line, x.length = 1 ∧ x ≠ ['\n']

instance (M : CodeMatrix) : Decidable (WF M) := by
  unfold WF; infer_instance

/-- A modification's range lies within the matrix and is ordered. -/
def InBounds (M : CodeMatrix) (m : Modification) : Prop :=
  m.selection.start.line < M.length ∧ m.selection.stop.line < M.length ∧
  m.selection.start.character ≤ (M.getD m.selection.start.line []).length ∧
  m.selection.stop.character ≤ (M.getD m.selection.stop.line []).length ∧
  posLe m.selection.start m.selection.stop

instance (M : CodeMatrix) (m : Modification) : Decidable (InBounds M m) := by
  unfold InBounds; infer_instance

/-- Non-overlap in ascending document order: the earlier modification ends
no later than the later one starts, and the starts strictly increase. -/
def Rmods (a b : Modification) : Prop :=
  posLe a.selection.stop b.selection.start ∧
  posLt a.selection.start b.selection.start

instance : DecidableRel Rmods := fun a b => by unfold Rmods; infer_instance

/-- Proof-internal: the first `c` entries of a line are single characters
(so entry index `c` is character position `c`), and `c` is within the line. -/
def PristineUpTo (l : Line) (c : Nat) : Prop :=
  c ≤ l.length ∧ ∀ x ∈ l.take c, x.length = 1

/-- Proof-internal bundle: bounds plus pristine prefixes for one
modification over the current matrix. -/
def CondP (M : CodeMatrix) (m : Modification) : Prop :=
  m.selection.start.line < M.length ∧ m.selection.stop.line < M.length ∧
  PristineUpTo (M.getD m.selection.start.line []) m.selection.start.character ∧
  PristineUpTo (M.getD m.selection.stop.line []) m.selection.stop.character ∧
  posLe m.selection.start m.selection.stop

theorem wf_inBounds_condP {M : CodeMatrix} {m : Modification}
    (hwf : WF M) (hb : InBounds M m) : CondP M m := by
  obtain ⟨h1, h2, h3, h4, h5⟩ := hb
  have hp : ∀ (i : Nat) (c : Nat), i < M.length → c ≤ (M.getD i []).length →
      PristineUpTo (M.getD i []) c := by
    intro i c hi hc
    refine ⟨hc, fun x hx => ?_⟩
    have hline : M.getD i [] ∈ M := by
      rw [List.getD_eq_getElem?_getD]
      rw [List.getElem?_eq_getElem hi]
      exact List.getElem_mem _
    exact (hwf _ hline x (List.take_subset _ _ hx)).1
  exact ⟨h1, h2, hp _ _ h1 h3, hp _ _ h2 h4, h5⟩

theorem pristine_mono {l : Line} {c c' : Nat} (h : PristineUpTo l c)
    (hle : c' ≤ c) : PristineUpTo l c' := by
  refine ⟨le_trans hle h.1, fun x hx => h.2 x ?_⟩
  have : l.take c' = (l.take c).take c' := by
    rw [List.take_take, min_eq_left hle]
  rw [this] at hx
  exact List.take_subset _ _ hx

theorem flatten_take_length {l : Line} {c : Nat} (h : PristineUpTo l c) :
    ((l.take c).flatten).length = c := by
  rw [List.length_flatten]
  have hrep : (l.take c).map List.length =
      List.replicate ((l.take c).map List.length).length 1 := by
    apply List.eq_replicate_of_mem
    intro b hb
    rcases List.mem_map.mp hb with ⟨x, hx, he⟩
    exact he ▸ h.2 x hx
  rw [hrep, List.sum_replicate, List.length_map, List.length_take,
    min_eq_left h.1]
  simp

theorem flatten_take_pristine {l : Line} {c : Nat} (h : PristineUpTo l c) :
    (l.take c).flatten = l.flatten.take c := by
  have hsplit : l.flatten = (l.take c).flatten ++ (l.drop c).flatten := by
    rw [← List.flatten_append, List.take_append_drop]
  conv_rhs => rw [hsplit]
  exact (List.take_left' (flatten_take_length h)).symm

theorem flatten_drop_pristine {l : Line} {c : Nat} (h : PristineUpTo l c) :
    (l.drop c).flatten = l.flatten.drop c := by
  have hsplit : l.flatten = (l.take c).flatten ++ (l.drop c).flatten := by
    rw [← List.flatten_append, List.take_append_drop]
  conv_rhs => rw [hsplit]
  exact (List.drop_left' (flatten_take_length h)).symm

theorem getD_map_flatten : ∀ (M : CodeMatrix) (i : Nat), i < M.length →
    (M.map List.flatten).getD i [] = (M.getD i []).flatten := by
  intro M
  induction M with
  | nil => intro i h; cases h
  | cons l t ih =>
    intro i h
    cases i with
    | zero => rfl
    | succ j => exact ih j (by simpa using h)

/-- The `for`-loop of the deletion pass, characterized: it replaces the
slice `[first, first + cnt)` with `cnt` copies of the sentinel. -/
theorem foldl_set_range' {α : Type} (v : α) (cnt : Nat) :
    ∀ (first : Nat) (X : List α), first + cnt ≤ X.length →
      (List.range' first cnt).foldl (fun A i => A.set i v) X =
        X.take first ++ List.replicate cnt v ++ X.drop (first + cnt) := by
  induction cnt with
  | zero =>
    intro first X _
    simp [List.take_append_drop]
  | succ n ih =>
    intro first X hlen
    rw [List.range'_succ]
    show (List.range' (first + 1) n).foldl (fun A i => A.set i v) (X.set first v) = _
    rw [ih (first + 1) (X.set first v) (by rw [List.length_set]; omega)]
    have hfl : first < X.length := by omega
    have h1 : (X.set first v).take (first + 1) = X.take first ++ [v] := by
      rw [List.set_take]
      rw [List.set_eq_take_append_cons_drop]
      have hlt : first < (X.take (first + 1)).length := by
        rw [List.length_take]; omega
      rw [if_pos hlt, List.take_take, List.drop_eq_nil_of_le]
      · simp [min_eq_left (by omega : first ≤ first + 1)]
      · rw [List.length_take]; omega
    have h2 : (X.set first v).drop (first + 1 + n) = X.drop (first + 1 + n) := by
      rw [List.drop_set, if_pos (by omega : first < first + 1 + n)]
    rw [h1, h2]
    have : first + 1 + n = first + (n + 1) := by omega
    rw [this, List.replicate_succ]
    simp [List.append_assoc]

theorem markDeleted_eq (M : CodeMatrix) (first cnt : Nat)
    (h : first + cnt ≤ M.length) :
    markDeleted M first cnt =
      M.take first ++ List.replicate cnt [DELETED_LINE] ++ M.drop (first + cnt) :=
  foldl_set_range' [DELETED_LINE] cnt first M h

theorem markDeletedLines_eq (L : List (List Char)) (first cnt : Nat)
    (h : first + cnt ≤ L.length) :
    markDeletedLines L first cnt =
      L.take first ++ List.replicate cnt DELETED_LINE ++ L.drop (first + cnt) :=
  foldl_set_range' DELETED_LINE cnt first L h

/-- One commit step commutes with joining each line's entries: the matrix
splice of `applyMod` is the string splice of `spliceKeepOne`, provided the
prefixes left of the range are still single characters. -/
theorem applyMod_flatten (M : CodeMatrix) (m : Modification) (h : CondP M m) :
    (applyMod M m).map List.flatten = spliceKeepOne (M.map List.flatten) m := by
  obtain ⟨hs, he, hps, hpe, hse⟩ := h
  have hgs := getD_map_flatten M m.selection.start.line hs
  have hge := getD_map_flatten M m.selection.stop.line he
  unfold applyMod spliceKeepOne jsSplice
  by_cases h1 : m.selection.start.line = m.selection.stop.line
  · simp only [if_pos h1]
    rw [List.map_set, hgs]
    congr 1
    have hcc : m.selection.start.character ≤ m.selection.stop.character := by
      unfold posLe at hse; omega
    have harith : m.selection.start.character +
        (m.selection.stop.character - m.selection.start.character) =
        m.selection.stop.character := by omega
    rw [harith, List.flatten_append, List.flatten_cons]
    rw [flatten_take_pristine hps, flatten_drop_pristine (h1.symm ▸ hpe)]
    simp [List.append_assoc]
  · have h2 : m.selection.start.line < m.selection.stop.line := by
      unfold posLe at hse; omega
    simp only [if_neg h1, if_pos h2]
    rw [markDeleted_eq _ _ _ (by rw [List.length_set]; omega),
      markDeletedLines_eq _ _ _ (by rw [List.length_set, List.length_map]; omega)]
    rw [List.map_append, List.map_append, List.map_take, List.map_drop,
      List.map_set, List.map_replicate]
    have harith : m.selection.start.character +
        ((M.getD m.selection.start.line []).length -
          m.selection.start.character) =
        (M.getD m.selection.start.line []).length := by
      have := hps.1; omega
    have hmerged :
        (List.take m.selection.start.character (M.getD m.selection.start.line []) ++
            m.code.data ::
              List.drop
                (m.selection.start.character +
                  ((M.getD m.selection.start.line []).length -
                    m.selection.start.character))
                (M.getD m.selection.start.line []) ++
          List.drop m.selection.stop.character
            (M.getD m.selection.stop.line [])).flatten =
        List.take m.selection.start.character
            ((M.map List.flatten).getD m.selection.start.line []) ++
          m.code.data ++
          List.drop m.selection.stop.character
            ((M.map List.flatten).getD m.selection.stop.line []) := by
      rw [harith, List.drop_length]
      simp only [List.flatten_append, List.flatten_cons, List.flatten_nil,
        List.append_nil]
      rw [flatten_take_pristine hps, flatten_drop_pristine hpe, hgs, hge]
    rw [hmerged]
    simp

theorem posLe_trans {a b c : Position} (h1 : posLe a b) (h2 : posLe b c) :
    posLe a c := by
  unfold posLe at *; omega

theorem foldl_set_length {α : Type} (v : α) :
    ∀ (idxs : List Nat) (X : List α),
      (idxs.foldl (fun A i => A.set i v) X).length = X.length := by
  intro idxs
  induction idxs with
  | nil => intro X; rfl
  | cons i t ih =>
    intro X
    show (t.foldl (fun A i => A.set i v) (X.set i v)).length = X.length
    rw [ih, List.length_set]

theorem applyMod_length (M : CodeMatrix) (m : Modification) :
    (applyMod M m).length = M.length := by
  unfold applyMod
  by_cases h1 : m.selection.start.line = m.selection.stop.line
  · simp only [if_pos h1]
    exact List.length_set _ _ _
  · simp only [if_neg h1]
    by_cases h2 : m.selection.start.line < m.selection.stop.line
    · simp only [if_pos h2]
      unfold markDeleted
      rw [foldl_set_length, List.length_set]
    · simp only [if_neg h2]

theorem getD_set_eq {α : Type} :
    ∀ (X : List α) (i : Nat) (a d : α), i < X.length →
      (X.set i a).getD i d = a := by
  intro X
  induction X with
  | nil => intro i a d h; cases h
  | cons x t ih =>
    intro i a d h
    cases i with
    | zero => rfl
    | succ j => exact ih j a d (by simpa using h)

theorem getD_set_ne {α : Type} :
    ∀ (X : List α) (i j : Nat) (a d : α), i ≠ j →
      (X.set i a).getD j d = X.getD j d := by
  intro X
  induction X with
  | nil =>
    intro i j a d _
    cases i <;> rfl
  | cons x t ih =>
    intro i j a d h
    cases i with
    | zero =>
      cases j with
      | zero => exact absurd rfl h
      | succ j' => rfl
    | succ i' =>
      cases j with
      | zero => rfl
      | succ j' => exact ih i' j' a d (by omega)

theorem foldl_set_getD_outside {α : Type} (v d : α) (cnt : Nat) :
    ∀ (first j : Nat) (X : List α), j < first ∨ first + cnt ≤ j →
      ((List.range' first cnt).foldl (fun A i => A.set i v) X).getD j d =
        X.getD j d := by
  induction cnt with
  | zero => intro first j X _; rfl
  | succ n ih =>
    intro first j X hj
    rw [List.range'_succ]
    show ((List.range' (first + 1) n).foldl (fun A i => A.set i v)
      (X.set first v)).getD j d = _
    rw [ih (first + 1) j _ (by omega)]
    exact getD_set_ne X first j v d (by omega)

theorem applyMod_getD_untouched (M : CodeMatrix) (m : Modification) (j : Nat)
    (hj : j < m.selection.start.line) :
    (applyMod M m).getD j [] = M.getD j [] := by
  unfold applyMod
  by_cases h1 : m.selection.start.line = m.selection.stop.line
  · simp only [if_pos h1]
    exact getD_set_ne _ _ _ _ _ (by omega)
  · simp only [if_neg h1]
    by_cases h2 : m.selection.start.line < m.selection.stop.line
    · simp only [if_pos h2]
      unfold markDeleted
      rw [foldl_set_getD_outside _ _ _ _ _ _ (Or.inl (by omega))]
      exact getD_set_ne _ _ _ _ _ (by omega)
    · simp only [if_neg h2]

/-- On the start line, a commit step keeps the prefix left of the range:
the updated line is the old prefix, the replacement entry, and some tail. -/
theorem applyMod_getD_startline (M : CodeMatrix) (m : Modification)
    (hm : CondP M m) :
    ∃ tail, (applyMod M m).getD m.selection.start.line [] =
      (M.getD m.selection.start.line []).take m.selection.start.character ++
        m.code.data :: tail := by
  obtain ⟨hs, he, hps, hpe, hse⟩ := hm
  unfold applyMod jsSplice
  by_cases h1 : m.selection.start.line = m.selection.stop.line
  · simp only [if_pos h1]
    rw [getD_set_eq _ _ _ _ hs]
    exact ⟨_, rfl⟩
  · have h2 : m.selection.start.line < m.selection.stop.line := by
      unfold posLe at hse; omega
    simp only [if_neg h1, if_pos h2]
    unfold markDeleted
    rw [foldl_set_getD_outside _ _ _ _ _ _ (Or.inl (by omega))]
    rw [getD_set_eq _ _ _ _ hs]
    exact ⟨_, by rw [List.append_assoc, List.cons_append]⟩

theorem pristine_prefix_shape {l : Line} {c pc : Nat} (x : Entry) (tail : Line)
    (hpl : PristineUpTo l c) (hple : pc ≤ c) (h : PristineUpTo l pc) :
    PristineUpTo (l.take c ++ x :: tail) pc := by
  have hlen : (l.take c).length = c := by
    rw [List.length_take]; exact min_eq_left hpl.1
  constructor
  · rw [List.length_append]; omega
  · intro y hy
    rw [List.take_append_of_le_length (by omega)] at hy
    rw [List.take_take, min_eq_left hple] at hy
    exact h.2 y hy

theorem applyMod_pristine_preserved (M : CodeMatrix) (m : Modification)
    (hm : CondP M m) (p : Position) (hp : posLe p m.selection.start)
    (h : PristineUpTo (M.getD p.line []) p.character) :
    PristineUpTo ((applyMod M m).getD p.line []) p.character := by
  rcases hp with hlt | ⟨heq, hcle⟩
  · rw [applyMod_getD_untouched M m p.line hlt]
    exact h
  · obtain ⟨tail, htail⟩ := applyMod_getD_startline M m hm
    rw [heq, htail]
    rw [heq] at h
    exact pristine_prefix_shape _ tail hm.2.2.1 hcle h

theorem applyMod_cond_preserved (M : CodeMatrix) (m m' : Modification)
    (hm : CondP M m) (hm' : CondP M m')
    (hlr : posLe m'.selection.stop m.selection.start) :
    CondP (applyMod M m) m' := by
  obtain ⟨h1, h2, h3, h4, h5⟩ := hm'
  refine ⟨?_, ?_, ?_, ?_, h5⟩
  · rw [applyMod_length]; exact h1
  · rw [applyMod_length]; exact h2
  · exact applyMod_pristine_preserved M m hm m'.selection.start
      (posLe_trans h5 hlr) h3
  · exact applyMod_pristine_preserved M m hm m'.selection.stop hlr h4

theorem cond_foldl (asc : List Modification) :
    ∀ (M : CodeMatrix) (m' : Modification), CondP M m' →
      (∀ mm ∈ asc, CondP M mm) →
      (∀ mm ∈ asc, posLe m'.selection.stop mm.selection.start) →
      asc.Pairwise Rmods →
      CondP (asc.reverse.foldl applyMod M) m' := by
  induction asc with
  | nil => intro M m' h _ _ _; exact h
  | cons m2 t ih =>
    intro M m' h hall hrel hpair
    rw [List.reverse_cons, List.foldl_append]
    simp only [List.foldl_cons, List.foldl_nil]
    have hpt := List.pairwise_cons.mp hpair
    apply applyMod_cond_preserved
    · exact ih M m2 (hall m2 (List.mem_cons_self _ _))
        (fun mm hmm => hall mm (List.mem_cons_of_mem _ hmm))
        (fun mm hmm => (hpt.1 mm hmm).1)
        hpt.2
    · exact ih M m' h (fun mm hmm => hall mm (List.mem_cons_of_mem _ hmm))
        (fun mm hmm => hrel mm (List.mem_cons_of_mem _ hmm)) hpt.2
    · exact hrel m2 (List.mem_cons_self _ _)

/-- The whole right-most-first commit sequence, at the joined-line level:
folding `applyMod` over the descending order is `spliceKeep` of the
ascending order. -/
theorem foldl_applyMod_flatten (asc : List Modification) :
    ∀ (M : CodeMatrix), (∀ mm ∈ asc, CondP M mm) → asc.Pairwise Rmods →
      (asc.reverse.foldl applyMod M).map List.flatten =
        spliceKeep asc (M.map List.flatten) := by
  induction asc with
  | nil => intro M _ _; rfl
  | cons m1 t ih =>
    intro M hall hpair
    rw [List.reverse_cons, List.foldl_append]
    simp only [List.foldl_cons, List.foldl_nil]
    have hpt := List.pairwise_cons.mp hpair
    rw [applyMod_flatten _ m1 (cond_foldl t M m1 (hall m1 (List.mem_cons_self _ _))
      (fun mm hmm => hall mm (List.mem_cons_of_mem _ hmm))
      (fun mm hmm => (hpt.1 mm hmm).1) hpt.2)]
    rw [ih M (fun mm hmm => hall mm (List.mem_cons_of_mem _ hmm)) hpt.2]
    rfl

theorem spliceKeepOne_length (L : List (List Char)) (m : Modification) :
    (spliceKeepOne L m).length = L.length := by
  unfold spliceKeepOne
  by_cases h1 : m.selection.start.line = m.selection.stop.line
  · simp only [if_pos h1]
    exact List.length_set _ _ _
  · simp only [if_neg h1]
    by_cases h2 : m.selection.start.line < m.selection.stop.line
    · simp only [if_pos h2]
      unfold markDeletedLines
      rw [foldl_set_length, List.length_set]
    · simp only [if_neg h2]

theorem spliceKeep_length (asc : List Modification) :
    ∀ (L : List (List Char)), (spliceKeep asc L).length = L.length := by
  induction asc with
  | nil => intro L; rfl
  | cons m t ih =>
    intro L
    show (spliceKeepOne (spliceKeep t L) m).length = L.length
    rw [spliceKeepOne_length, ih]

theorem getD_take {α : Type} :
    ∀ (X : List α) (n j : Nat) (d : α), j < n →
      (X.take n).getD j d = X.getD j d := by
  intro X
  induction X with
  | nil => intro n j d _; cases n <;> rfl
  | cons x t ih =>
    intro n j d h
    cases n with
    | zero => omega
    | succ n' =>
      cases j with
      | zero => rfl
      | succ j' => exact ih n' j' d (by omega)

theorem take_agree_mono {α : Type} {X Y : List α} {n B : Nat}
    (h : X.take n = Y.take n) (hB : B ≤ n) : X.take B = Y.take B := by
  have h1 : X.take B = (X.take n).take B := by
    rw [List.take_take, min_eq_left hB]
  have h2 : Y.take B = (Y.take n).take B := by
    rw [List.take_take, min_eq_left hB]
  rw [h1, h2, h]

theorem take_agree_getD {α : Type} {X Y : List α} {n : Nat} (j : Nat) (d : α)
    (h : X.take n = Y.take n) (hj : j < n) : X.getD j d = Y.getD j d := by
  rw [← getD_take X n j d hj, h, getD_take Y n j d hj]

theorem set_take_succ {α : Type} (X : List α) (i : Nat) (a : α)
    (h : i < X.length) :
    (X.set i a).take (i + 1) = X.take i ++ [a] := by
  rw [List.set_take, List.set_eq_take_append_cons_drop]
  have hlt : i < (X.take (i + 1)).length := by rw [List.length_take]; omega
  rw [if_pos hlt, List.take_take,
    List.drop_eq_nil_of_le (by rw [List.length_take]; omega),
    min_eq_left (by omega : i ≤ i + 1)]

theorem append_cons_decomp {α : Type} (A : List α) (x : α) (Z : List α) :
    A ++ x :: Z = (A ++ [x]) ++ Z := by
  rw [List.append_assoc, List.singleton_append]

theorem take_append_le {α : Type} (A C : List α) (B : Nat) (h : B ≤ A.length) :
    (A ++ C).take B = A.take B :=
  List.take_append_of_le_length h

theorem drop_append_le {α : Type} (A C : List α) (B : Nat) (h : B ≤ A.length) :
    (A ++ C).drop B = A.drop B ++ C :=
  List.drop_append_of_le_length h

/-- The sentinel-keeping commit and the claim's line-removing document splice
agree on the prefix left of every modification and, after dropping sentinel
lines, on the rest. -/
theorem spliceKeep_documentSplice (asc : List Modification) :
    ∀ (L : List (List Char)) (B : Nat),
      (∀ mm ∈ asc, mm.selection.start.line < L.length ∧
        mm.selection.stop.line < L.length ∧
        posLe mm.selection.start mm.selection.stop) →
      asc.Pairwise Rmods →
      (∀ mm ∈ asc, B ≤ mm.selection.start.line + 1) →
      (spliceKeep asc L).take B = (documentSplice asc L).take B ∧
      ((spliceKeep asc L).drop B).filter (fun l => decide (l ≠ DELETED_LINE)) =
        ((documentSplice asc L).drop B).filter
          (fun l => decide (l ≠ DELETED_LINE)) := by
  induction asc with
  | nil => intro L B _ _ _; exact ⟨rfl, rfl⟩
  | cons m1 t ih =>
    intro L B hb hpair hB
    have hpt := List.pairwise_cons.mp hpair
    obtain ⟨hs1, he1, hse1⟩ := hb m1 (List.mem_cons_self _ _)
    have hslel : m1.selection.start.line ≤ m1.selection.stop.line := by
      unfold posLe at hse1; omega
    obtain ⟨hT, hF⟩ := ih L (m1.selection.stop.line + 1)
      (fun mm hmm => hb mm (List.mem_cons_of_mem _ hmm)) hpt.2
      (fun mm hmm => by
        have h := (hpt.1 mm hmm).1
        unfold posLe at h; omega)
    have hBle : B ≤ m1.selection.start.line + 1 := hB m1 (List.mem_cons_self _ _)
    have hKlen : (spliceKeep t L).length = L.length := spliceKeep_length t L
    have hRlen : m1.selection.stop.line + 1 ≤ (documentSplice t L).length := by
      have h1 := congrArg List.length hT
      rw [List.length_take, List.length_take, hKlen] at h1
      omega
    have hg : ∀ j, j ≤ m1.selection.stop.line →
        (spliceKeep t L).getD j [] = (documentSplice t L).getD j [] := by
      intro j hj
      exact take_agree_getD j [] hT (by omega)
    set nl := ((documentSplice t L).getD m1.selection.start.line []).take
        m1.selection.start.character ++ m1.code.data ++
      ((documentSplice t L).getD m1.selection.stop.line []).drop
        m1.selection.stop.character with hnl
    set AK := (spliceKeep t L).take m1.selection.start.line with hAK
    set AR := (documentSplice t L).take m1.selection.start.line with hAR
    have hshapeK : spliceKeepOne (spliceKeep t L) m1 =
        (AK ++ [nl]) ++
          (List.replicate (m1.selection.stop.line - m1.selection.start.line)
              DELETED_LINE ++
            (spliceKeep t L).drop (m1.selection.stop.line + 1)) := by
      rw [hnl, hAK]
      unfold spliceKeepOne
      by_cases h1 : m1.selection.start.line = m1.selection.stop.line
      · rw [if_pos h1]
        rw [hg _ hslel]
        rw [← h1, Nat.sub_self]
        rw [List.set_eq_take_append_cons_drop,
          if_pos (show m1.selection.start.line < (spliceKeep t L).length by
            rw [hKlen]; exact hs1)]
        rw [List.replicate_zero, List.nil_append]
        exact append_cons_decomp _ _ _
      · have h2 : m1.selection.start.line < m1.selection.stop.line := by omega
        rw [if_neg h1, if_pos h2]
        rw [hg _ hslel, hg _ (le_refl _)]
        rw [markDeletedLines_eq _ _ _
          (by rw [List.length_set, hKlen]; omega)]
        rw [set_take_succ _ _ _ (by rw [hKlen]; exact hs1)]
        have harith : m1.selection.start.line + 1 +
            (m1.selection.stop.line - m1.selection.start.line) =
            m1.selection.stop.line + 1 := by omega
        rw [harith, List.drop_set, if_pos (by omega)]
        exact List.append_assoc _ _ _
    have hshapeR : spliceOne (documentSplice t L) m1 =
        (AR ++ [nl]) ++ (documentSplice t L).drop (m1.selection.stop.line + 1) := by
      rw [hnl, hAR]
      exact append_cons_decomp _ _ _
    have hAlenK : (AK ++ [nl]).length = m1.selection.start.line + 1 := by
      rw [hAK, List.length_append, List.length_take, hKlen]
      simp only [List.length_singleton]
      omega
    have hAlenR : (AR ++ [nl]).length = m1.selection.start.line + 1 := by
      rw [hAR, List.length_append, List.length_take]
      simp only [List.length_singleton]
      omega
    have hA : AK = AR := take_agree_mono hT (by omega)
    have hKdef : spliceKeep (m1 :: t) L = spliceKeepOne (spliceKeep t L) m1 := rfl
    have hRdef : documentSplice (m1 :: t) L =
        spliceOne (documentSplice t L) m1 := rfl
    rw [hKdef, hRdef, hshapeK, hshapeR]
    constructor
    · rw [take_append_le (AK ++ [nl]) _ B (by rw [hAlenK]; omega),
        take_append_le (AR ++ [nl]) _ B (by rw [hAlenR]; omega), hA]
    · rw [drop_append_le (AK ++ [nl]) _ B (by rw [hAlenK]; omega),
        drop_append_le (AR ++ [nl]) _ B (by rw [hAlenR]; omega)]
      rw [List.filter_append, List.filter_append, List.filter_append]
      rw [hA, hF, List.filter_replicate]
      simp

/-! ### The sort: any return order commits right-most first -/

/-- Strictly descending starts — the unique order the comparator induces on
modification lists with pairwise distinct starts. -/
def rStrictDesc (a b : Modification) : Prop :=
  posLt b.selection.start a.selection.start

instance : IsAntisymm Modification rStrictDesc :=
  ⟨fun a b h1 h2 => by unfold rStrictDesc posLt at h1 h2; omega⟩

instance : IsTotal Modification rDesc :=
  ⟨fun a b => by
    simp only [rDesc, Selection.startsBefore, isBefore_iff_posLe]
    unfold posLe
    omega⟩

instance : IsTrans Modification rDesc :=
  ⟨fun a b c h1 h2 => by
    simp only [rDesc, Selection.startsBefore, isBefore_iff_posLe] at *
    unfold posLe at *
    omega⟩

theorem position_ne_coords {p q : Position} (h : p ≠ q) :
    p.line ≠ q.line ∨ p.character ≠ q.character := by
  by_contra hc
  push_neg at hc
  exact h (by cases p; cases q; simp_all)

/-- On a list of modifications with non-overlapping ascending ranges, the
source's sort — right-most start first — maps any permutation to the unique
descending order. -/
theorem sortMods_eq_reverse (mods asc : List Modification)
    (hperm : mods.Perm asc) (hpair : asc.Pairwise Rmods) :
    sortMods mods = asc.reverse := by
  have hsorted : List.Sorted rDesc (sortMods mods) :=
    List.sorted_insertionSort rDesc mods
  have hpermS : (sortMods mods).Perm asc.reverse :=
    (List.perm_insertionSort rDesc mods).trans
      (hperm.trans (List.reverse_perm asc).symm)
  have hneq : asc.Pairwise
      (fun a b => a.selection.start ≠ b.selection.start) :=
    hpair.imp (fun h hc => by
      obtain ⟨-, h2⟩ := h
      rw [hc] at h2
      unfold posLt at h2
      omega)
  have hsymm : ∀ {x y : Modification},
      x.selection.start ≠ y.selection.start →
        y.selection.start ≠ x.selection.start :=
    fun h hc => h hc.symm
  have hneqS : (sortMods mods).Pairwise
      (fun a b => a.selection.start ≠ b.selection.start) := by
    refine (List.Perm.pairwise_iff hsymm hpermS).mpr ?_
    rw [List.pairwise_reverse]
    exact hneq.imp hsymm
  have hstrictS : (sortMods mods).Pairwise rStrictDesc := by
    refine (List.Pairwise.and hsorted hneqS).imp ?_
    intro a b h
    obtain ⟨h1, h2⟩ := h
    simp only [rDesc, Selection.startsBefore, isBefore_iff_posLe] at h1
    rcases position_ne_coords h2 with hl | hc
    all_goals (unfold posLe at h1; unfold rStrictDesc posLt; omega)
  have hstrictR : asc.reverse.Pairwise rStrictDesc := by
    rw [List.pairwise_reverse]
    exact hpair.imp (fun h => h.2)
  exact List.eq_of_perm_of_sorted hpermS hstrictS hstrictR

/-! ### Final text equality: splitting the serialized text recovers the
joined lines -/

theorem splitLines_cons (c : Char) (rest : List Char) :
    splitLines (c :: rest) =
      if c = '\n' then [] :: splitLines rest
      else
        match splitLines rest with
        | [] => [[c]]
        | h :: t => (c :: h) :: t := rfl

theorem splitLines_no_newline (l : List Char) (h : '\n' ∉ l) :
    splitLines l = [l] := by
  induction l with
  | nil => rfl
  | cons c rest ih =>
    rw [splitLines_cons]
    have hc : ¬ (c = '\n') := fun hc => h (hc ▸ List.mem_cons_self c rest)
    rw [if_neg hc, ih (fun hm => h (List.mem_cons_of_mem c hm))]

theorem splitLines_append_newline (A : List Char) (X : List Char)
    (hA : '\n' ∉ A) :
    splitLines (A ++ '\n' :: X) = A :: splitLines X := by
  induction A with
  | nil =>
    rw [List.nil_append, splitLines_cons, if_pos rfl]
  | cons c A' ih =>
    rw [List.cons_append, splitLines_cons]
    have hc : ¬ (c = '\n') := fun hc => hA (hc ▸ List.mem_cons_self c A')
    rw [if_neg hc, ih (fun hm => hA (List.mem_cons_of_mem c hm))]

theorem splitLines_intercalateNl :
    ∀ (L : List (List Char)), L ≠ [] → (∀ l ∈ L, '\n' ∉ l) →
      splitLines (intercalateNl L) = L := by
  intro L
  induction L with
  | nil => intro h _; exact absurd rfl h
  | cons l rest ih =>
    intro _ hnl
    cases rest with
    | nil =>
      show splitLines l = [l]
      exact splitLines_no_newline l (hnl l (List.mem_cons_self _ _))
    | cons l2 rest2 =>
      show splitLines (l ++ '\n' :: intercalateNl (l2 :: rest2)) = l :: l2 :: rest2
      rw [splitLines_append_newline l _ (hnl l (List.mem_cons_self _ _))]
      rw [ih (by simp) (fun x hx => hnl x (List.mem_cons_of_mem _ hx))]

theorem flatten_no_newline {M : CodeMatrix} (hWF : WF M) :
    ∀ l ∈ M.map List.flatten, '\n' ∉ l := by
  intro l hl hmem
  rcases List.mem_map.mp hl with ⟨line, hline, hflat⟩
  rw [← hflat] at hmem
  rcases List.mem_flatten.mp hmem with ⟨x, hx, hcx⟩
  obtain ⟨hlen, hne⟩ := hWF line hline x hx
  cases x with
  | nil => cases hcx
  | cons c cs =>
    cases cs with
    | nil =>
      rcases List.mem_singleton.mp hcx with rfl
      exact hne rfl
    | cons d ds => simp at hlen

/-- C2 (amended): for a buffer matrix and a set of non-overlapping in-bounds
modifications — given to `readThenWrite` in any order `mods` that permutes
their ascending document order `asc` — the commit sorts them right-most
first (`sortMods mods = asc.reverse`), and the serialized result equals the
original text with every modification's range replaced by its code in
document order, provided no line of the buffer and no line of the spliced
result equals the internal `DELETED_LINE` sentinel (which serialization
silently drops). -/
theorem commit_order_independence
    (M : CodeMatrix) (sel₀ sel : Selection) (p : Option Position)
    (mods asc : List Modification)
    (hWF : WF M) (hne : M ≠ [])
    (hperm : mods.Perm asc)
    (hpair : asc.Pairwise Rmods)
    (hbounds : ∀ mm ∈ asc, InBounds M mm)
    (hsent : ∀ l ∈ M.map List.flatten, l ≠ DELETED_LINE)
    (hsplice : ∀ l ∈ documentSplice asc (M.map List.flatten),
      l ≠ DELETED_LINE) :
    sortMods mods = asc.reverse ∧
    read ((readThenWrite ⟨M, sel₀⟩ sel (fun _ => mods) p).codeMatrix) =
      spliceIntoText (read M) asc := by
  have hsort := sortMods_eq_reverse mods asc hperm hpair
  refine ⟨hsort, ?_⟩
  have hmat : (readThenWrite ⟨M, sel₀⟩ sel (fun _ => mods) p).codeMatrix =
      (sortMods mods).foldl applyMod M := rfl
  rw [hmat, hsort]
  have hcond : ∀ mm ∈ asc, CondP M mm :=
    fun mm hmm => wf_inBounds_condP hWF (hbounds mm hmm)
  have h1 := foldl_applyMod_flatten asc M hcond hpair
  obtain ⟨-, hfilter⟩ := spliceKeep_documentSplice asc (M.map List.flatten) 0
    (fun mm hmm => by
      obtain ⟨hb1, hb2, _, _, hb5⟩ := hbounds mm hmm
      rw [List.length_map]
      exact ⟨hb1, hb2, hb5⟩)
    hpair (fun mm hmm => by omega)
  rw [List.drop_zero, List.drop_zero] at hfilter
  have hreadL : read (asc.reverse.foldl applyMod M) =
      ⟨intercalateNl (((asc.reverse.foldl applyMod M).map List.flatten).filter
        (fun l => decide (l ≠ DELETED_LINE)))⟩ := rfl
  rw [hreadL, h1, hfilter]
  rw [List.filter_eq_self.mpr (fun a ha => by simpa using hsplice a ha)]
  have hlines : splitLines (read M).data = M.map List.flatten := by
    have hread : (read M).data =
        intercalateNl ((M.map List.flatten).filter
          (fun l => decide (l ≠ DELETED_LINE))) := rfl
    rw [hread, List.filter_eq_self.mpr (fun a ha => by simpa using hsent a ha)]
    exact splitLines_intercalateNl _
      (fun hc => hne (List.map_eq_nil_iff.mp hc)) (flatten_no_newline hWF)
  unfold spliceIntoText
  rw [hlines]

/-- C2 counterexample: on the buffer `"___DELETED_LINE___\nabc"` — whose
first line is the internal sentinel — committing the single in-bounds
modification replacing `(1,0)-(1,1)` with `"X"` serializes to `"Xbc"`
(serialization drops the sentinel line), while splicing the modification
into the original serialized text in document order gives `"abc\nX"`, so the
claimed equality fails. -/
theorem commit_order_cex :
    read ((readThenWrite (mkEditor "___DELETED_LINE___\nabc" ⟨0, 0⟩)
        ⟨⟨1, 0⟩, ⟨1, 1⟩⟩ (fun _ => [⟨"X", ⟨⟨1, 0⟩, ⟨1, 1⟩⟩⟩]) none).codeMatrix) =
      "Xbc" ∧
    spliceIntoText (read (mkEditor "___DELETED_LINE___\nabc" ⟨0, 0⟩).codeMatrix)
      [⟨"X", ⟨⟨1, 0⟩, ⟨1, 1⟩⟩⟩] = "abc\nX" ∧
    ("Xbc" : String) ≠ "abc\nX" := by decide

/-- Witness for `commit_order_independence`: two modifications handed over in
swapped order on the buffer `"abc\ndef"`. -/
theorem commit_order_independence_witness :
    sortMods [⟨"YZ", ⟨⟨1, 0⟩, ⟨1, 2⟩⟩⟩, ⟨"X", ⟨⟨0, 1⟩, ⟨0, 2⟩⟩⟩] =
      ([⟨"X", ⟨⟨0, 1⟩, ⟨0, 2⟩⟩⟩, ⟨"YZ", ⟨⟨1, 0⟩, ⟨1, 2⟩⟩⟩] :
        List Modification).reverse ∧
    read ((readThenWrite ⟨setCodeMatrix "abc\ndef", Selection.cursorAt 0 0⟩
        ⟨⟨0, 0⟩, ⟨1, 2⟩⟩
        (fun _ => [⟨"YZ", ⟨⟨1, 0⟩, ⟨1, 2⟩⟩⟩, ⟨"X", ⟨⟨0, 1⟩, ⟨0, 2⟩⟩⟩])
        none).codeMatrix) =
      spliceIntoText (read (setCodeMatrix "abc\ndef"))
        [⟨"X", ⟨⟨0, 1⟩, ⟨0, 2⟩⟩⟩, ⟨"YZ", ⟨⟨1, 0⟩, ⟨1, 2⟩⟩⟩] :=
  commit_order_independence (setCodeMatrix "abc\ndef") (Selection.cursorAt 0 0)
    ⟨⟨0, 0⟩, ⟨1, 2⟩⟩ none
    [⟨"YZ", ⟨⟨1, 0⟩, ⟨1, 2⟩⟩⟩, ⟨"X", ⟨⟨0, 1⟩, ⟨0, 2⟩⟩⟩]
    [⟨"X", ⟨⟨0, 1⟩, ⟨0, 2⟩⟩⟩, ⟨"YZ", ⟨⟨1, 0⟩, ⟨1, 2⟩⟩⟩]
    (by decide) (by decide) (List.Perm.swap _ _ _) (by decide) (by decide)
    (by decide) (by decide)

end Abracadabra
